import Mathlib

/-!
Verification of the reactive metadata synchronization engine of the
obsidian-meta-bind plugin (`MetadataManager` in the source).

The engine keeps one cache entry per document, each holding a mutable
metadata tree, a list of path-keyed listeners, a staleness counter
(`cyclesSinceLastUserInput`) and a dirty flag (`changed`).  We embed the
manager as a pure state-transition system: JavaScript values become the
inductive `JSVal`, the global `this.cache` array becomes a `List` of
entries inside `ManagerState`, listener callbacks become emitted
`Notification` events, and `processFrontMatter` write-backs become emitted
`WriteBack` events.
-/

namespace MetaBind

mutual

/-- A JavaScript value as stored in a document's frontmatter metadata:
`undefined`, `null`, a scalar, or an object with an ordered field list. -/
inductive JSVal where
  | undefV : JSVal
  | null : JSVal
  | str : String → JSVal
  | num : Int → JSVal
  | boolV : Bool → JSVal
  | obj : JSFields → JSVal

/-- The ordered own-property list of a JavaScript object. -/
inductive JSFields where
  | nil : JSFields
  | cons : String → JSVal → JSFields → JSFields

end

mutual

def JSVal.beq : JSVal → JSVal → Bool
  | .undefV, .undefV => true
  | .null, .null => true
  | .str a, .str b => a == b
  | .num a, .num b => a == b
  | .boolV a, .boolV b => a == b
  | .obj a, .obj b => JSFields.beq a b
  | _, _ => false

def JSFields.beq : JSFields → JSFields → Bool
  | .nil, .nil => true
  | .cons k v r, .cons k2 v2 r2 => k == k2 && JSVal.beq v v2 && JSFields.beq r r2
  | _, _ => false

end

mutual

theorem jsval_beq_iff : ∀ a b : JSVal, JSVal.beq a b = true ↔ a = b
  | .undefV, b => by cases b <;> simp [JSVal.beq]
  | .null, b => by cases b <;> simp [JSVal.beq]
  | .str a, b => by cases b <;> simp [JSVal.beq]
  | .num a, b => by cases b <;> simp [JSVal.beq]
  | .boolV a, b => by cases b <;> simp [JSVal.beq]
  | .obj a, b => by
      cases b <;> simp [JSVal.beq]
      exact jsfields_beq_iff a _

theorem jsfields_beq_iff : ∀ a b : JSFields, JSFields.beq a b = true ↔ a = b
  | .nil, b => by cases b <;> simp [JSFields.beq]
  | .cons k v r, b => by
      cases b with
      | nil => simp [JSFields.beq]
      | cons k2 v2 r2 =>
          simp only [JSFields.beq, Bool.and_eq_true, JSFields.cons.injEq]
          rw [beq_iff_eq, jsval_beq_iff v v2, jsfields_beq_iff r r2]
          tauto

end

instance : DecidableEq JSVal := fun a b =>
  decidable_of_iff (JSVal.beq a b = true) (jsval_beq_iff a b)

instance : DecidableEq JSFields := fun a b =>
  decidable_of_iff (JSFields.beq a b = true) (jsfields_beq_iff a b)

/-- Property read `fields[k]` on an object's own-property list: the first
binding of the key, or JavaScript `undefined` when the key is absent. -/
def JSFields.get : JSFields → String → JSVal
  | .nil, _ => .undefV
  | .cons k v rest, key => if k == key then v else rest.get key

/-- Property assignment `fields[k] = v`: replaces the binding of an
existing key in place, or appends a new binding at the end, exactly as a
JavaScript object assignment does. -/
def JSFields.set : JSFields → String → JSVal → JSFields
  | .nil, key, v => .cons key v .nil
  | .cons k v0 rest, key, v =>
      if k == key then .cons key v rest else .cons k v0 (rest.set key v)

/-- The `delete obj[k]` operator: removes the binding of the key. -/
def JSFields.removeKey : JSFields → String → JSFields
  | .nil, _ => .nil
  | .cons k v rest, key =>
      if k == key then rest.removeKey key else .cons k v (rest.removeKey key)

/-- Property read on an arbitrary value (`o?.[k]`): yields the field for an
object and `undefined` for every non-object. -/
def getProp (v : JSVal) (k : String) : JSVal :=
  match v with
  | .obj fields => fields.get k
  | _ => .undefV

/-- Modelled from the spec: `traverseObjectByPath` from
opd-utils-lib/ObjectTraversalUtils (not part of this repository's sources).
Spec 4.1: returns the value at `path` within `root`, or `undefined` if any
intermediate step is absent; it never throws. -/
def traverseObjectByPath : List String → JSVal → JSVal
  | [], v => v
  | k :: rest, v =>
      match v with
      | .obj fields => traverseObjectByPath rest (fields.get k)
      | _ => .undefV

/-- One registered listener of a document cache:
`MetadataFileCacheListener` without its callback closure (the callback is
modelled by the emitted `Notification` events). -/
structure CacheListener where
  metadataPath : List String
  uuid : String
deriving DecidableEq

/-- One entry of `MetadataManager.cache`: `MetadataFileCache` with the
`TFile` handle reduced to its path. -/
structure MetadataFileCache where
  filePath : String
  metadata : JSVal
  listeners : List CacheListener
  cyclesSinceLastUserInput : Nat
  changed : Bool
deriving DecidableEq

/-- The mutable state of a `MetadataManager` instance: the cache array and
the `updateCycleThreshold` field (initialised to 5 in the class body). -/
structure ManagerState where
  cache : List MetadataFileCache
  updateCycleThreshold : Nat := 5
deriving DecidableEq

/-- One invocation of a listener callback (`listener.callback(value)`,
i.e. `signal.set(value)` on the subscribed signal). -/
structure Notification where
  uuid : String
  value : JSVal
deriving DecidableEq

/-- One write-back of in-memory metadata to the external store
(`processFrontMatter` merging `fileCache.metadata` into the file). -/
structure WriteBack where
  filePath : String
  metadata : JSVal
deriving DecidableEq

/-- A manager state with no cache entries, as built by the constructor. -/
def initialManager : ManagerState := { cache := [] }

/-- Replace the first element satisfying `p` (the element in-place mutation
of the entry returned by `Array.prototype.find` acts on). -/
def replaceFirst (p : α → Bool) (y : α) : List α → List α
  | [] => []
  | x :: xs => if p x then y :: xs else x :: replaceFirst p y xs

/-- `MetadataManager.getCacheForFile`: `this.cache.find(x => x.file.path
=== file.path)`. -/
def getCacheForFile (st : ManagerState) (filePath : String) : Option MetadataFileCache :=
  st.cache.find? (fun c => c.filePath == filePath)

/-- `MetadataManager.register`: reuse the cache entry for the file when one
exists (appending a listener) or create a fresh entry seeded from the
external store (`getMetadataFromFileCache`, passed in as `storeMetadata`).
Returns the new state and the value the registered signal is seeded with. -/
def register (st : ManagerState) (filePath : String) (metadataPath : List String)
    (uuid : String) (storeMetadata : JSVal) : ManagerState × JSVal :=
  match getCacheForFile st filePath with
  | some fileCache =>
      let fc := { fileCache with
        listeners := fileCache.listeners ++ [⟨metadataPath, uuid⟩] }
      ({ st with cache := replaceFirst (fun c => c.filePath == filePath) fc st.cache },
       traverseObjectByPath metadataPath fileCache.metadata)
  | none =>
      let c : MetadataFileCache := {
        filePath := filePath
        metadata := storeMetadata
        listeners := [⟨metadataPath, uuid⟩]
        cyclesSinceLastUserInput := 0
        changed := false }
      ({ st with cache := st.cache ++ [c] },
       traverseObjectByPath metadataPath storeMetadata)

/-- `MetadataManager.unregister`: filter out the subscriber's listeners
from the file's entry; when the listener list becomes empty, drop every
cache entry for that file path. -/
def unregister (st : ManagerState) (filePath uuid : String) : ManagerState :=
  match getCacheForFile st filePath with
  | none => st
  | some fileCache =>
      let newListeners := fileCache.listeners.filter (fun l => l.uuid != uuid)
      if newListeners.isEmpty then
        { st with cache := st.cache.filter (fun c => c.filePath != filePath) }
      else
        let fc := { fileCache with listeners := newListeners }
        { st with cache := replaceFirst (fun c => c.filePath == filePath) fc st.cache }

/-- The guard `if (exceptUuid && exceptUuid === listener.uuid)`: an
`undefined` or empty (falsy) `exceptUuid` excludes nobody. -/
def exceptMatches (exceptUuid : Option String) (uuid : String) : Bool :=
  match exceptUuid with
  | none => false
  | some e => e != "" && e == uuid

/-- `MetadataManager.notifyListeners`: with a `metadataPath`, invoke the
callbacks of the listeners whose subscribed path equals it
(`arrayEquals`), each with the value at that path; without one, invoke
every callback with its own path's value; skip `exceptUuid` either way. -/
def notifyListeners (fileCache : MetadataFileCache) (metadataPath : Option (List String))
    (exceptUuid : Option String) : List Notification :=
  fileCache.listeners.filterMap (fun l =>
    if exceptMatches exceptUuid l.uuid then none
    else
      match metadataPath with
      | some p =>
          if p == l.metadataPath then
            some ⟨l.uuid, traverseObjectByPath p fileCache.metadata⟩
          else none
      | none => some ⟨l.uuid, traverseObjectByPath l.metadataPath fileCache.metadata⟩)

/-- `MetadataManager.updateCache`: whole-cache local write. A missing entry
is a silent no-op; otherwise replace the metadata, reset the staleness
counter and notify all listeners except `uuid`. -/
def updateCache (st : ManagerState) (metadata : JSVal) (filePath : String)
    (uuid : Option String) : ManagerState × List Notification :=
  match getCacheForFile st filePath with
  | none => (st, [])
  | some fileCache =>
      let fc := { fileCache with metadata := metadata, cyclesSinceLastUserInput := 0 }
      ({ st with cache := replaceFirst (fun c => c.filePath == filePath) fc st.cache },
       notifyListeners fc none uuid)

/-- The in-place assignment `parent.value[child.key] = value` performed by
`updatePropertyInCache`: functionally, rebuild `root` with the object at
`parentPath` updated at `key`. Only reached when the value at `parentPath`
is an object. -/
def setAtParent : List String → String → JSVal → JSVal → JSVal
  | [], key, v, root =>
      match root with
      | .obj fields => .obj (fields.set key v)
      | other => other
  | p :: rest, key, v, root =>
      match root with
      | .obj fields => .obj (fields.set p (setAtParent rest key v (fields.get p)))
      | other => other

/-- `MetadataManager.updatePropertyInCache`: at-path local write. Returns
the new state, the emitted notifications and, in place of a JavaScript
exception, an optional error message. Modelled from the spec for the part
living in utils/Utils (not under the provided sources):
`traverseObjectToParentByPath` resolves the parent slot as the value at
`pathParts` minus its last segment and the child as that parent's property
at the last segment (spec 4.1). A write whose resolved parent is
`undefined` throws before any mutation; an idempotent value is skipped; a
write whose parent is a non-object primitive throws a `TypeError` at the
assignment (strict mode), also before any mutation of the entry. -/
def updatePropertyInCache (st : ManagerState) (value : JSVal) (pathParts : List String)
    (filePath : String) (uuid : Option String) :
    ManagerState × List Notification × Option String :=
  match getCacheForFile st filePath with
  | none => (st, [], none)
  | some fileCache =>
      let parentPath := pathParts.dropLast
      let childKey := (pathParts.getLast?).getD ""
      let parentValue := traverseObjectByPath parentPath fileCache.metadata
      let childValue := getProp parentValue childKey
      if parentValue = JSVal.undefV then
        (st, [], some ("The parent of " ++ String.intercalate "." pathParts ++
          " does not exist in Object, please create the parent first"))
      else if childValue = value then
        (st, [], none)
      else
        match parentValue with
        | .obj _ =>
            let fc := { fileCache with
              metadata := setAtParent parentPath childKey value fileCache.metadata
              cyclesSinceLastUserInput := 0
              changed := true }
            ({ st with cache := replaceFirst (fun c => c.filePath == filePath) fc st.cache },
             notifyListeners fc (some pathParts) uuid, none)
        | _ => (st, [], some "TypeError: can not create a property on a primitive value")

/-- `Object.assign({}, cache.frontmatter)` followed by
`delete metadata.position`: a shallow copy of the host-provided
frontmatter without its `position` key; a missing frontmatter copies to
the empty object. -/
def copyFrontmatterWithoutPosition (frontmatter : JSVal) : JSVal :=
  match frontmatter with
  | .obj fields => .obj (fields.removeKey "position")
  | _ => .obj .nil

/-- `MetadataManager.updateCacheOnFrontmatterUpdate`: the handler for the
host's external change event. A missing entry is ignored; an entry whose
staleness counter is below the threshold suppresses the event; otherwise
the metadata is replaced by the copied frontmatter, the counter resets and
every listener is notified (the `changed` flag is left untouched). -/
def updateCacheOnFrontmatterUpdate (st : ManagerState) (filePath : String)
    (frontmatter : JSVal) : ManagerState × List Notification :=
  match getCacheForFile st filePath with
  | none => (st, [])
  | some fileCache =>
      if fileCache.cyclesSinceLastUserInput < st.updateCycleThreshold then (st, [])
      else
        let fc := { fileCache with
          metadata := copyFrontmatterWithoutPosition frontmatter
          cyclesSinceLastUserInput := 0 }
        ({ st with cache := replaceFirst (fun c => c.filePath == filePath) fc st.cache },
         notifyListeners fc none none)

/-- One cache entry's share of a scheduler tick: a dirty entry is written
back (`updateFrontmatter`, which pushes the metadata and clears `changed`),
then the staleness counter is incremented. -/
def tickEntry (e : MetadataFileCache) : MetadataFileCache × Option WriteBack :=
  if e.changed then
    let e2 := { e with changed := false,
                       cyclesSinceLastUserInput := e.cyclesSinceLastUserInput + 1 }
    (e2, some ⟨e.filePath, e.metadata⟩)
  else
    ({ e with cyclesSinceLastUserInput := e.cyclesSinceLastUserInput + 1 }, none)

/-- The loop body of `MetadataManager.update` over the cache array. -/
def updateEntries : List MetadataFileCache → List MetadataFileCache × List WriteBack
  | [] => ([], [])
  | e :: rest =>
      let (e2, wb) := tickEntry e
      let (rest2, wbs) := updateEntries rest
      (e2 :: rest2,
       match wb with
       | some w => w :: wbs
       | none => wbs)

/-- `MetadataManager.update`: the periodic scheduler tick. Returns the new
state and the write-backs issued to the external store during the tick. -/
def update (st : ManagerState) : ManagerState × List WriteBack :=
  let (c, wbs) := updateEntries st.cache
  ({ st with cache := c }, wbs)

/-- A register or unregister call, for reasoning about every reachable
sequence of subscription operations. -/
inductive MMOp where
  | regOp (filePath : String) (metadataPath : List String) (uuid : String)
      (storeMetadata : JSVal)
  | unregOp (filePath : String) (uuid : String)

/-- Apply one subscription operation to a manager state. -/
def applyOp (st : ManagerState) : MMOp → ManagerState
  | .regOp fp p u m => (register st fp p u m).1
  | .unregOp fp u => unregister st fp u

/-- Apply a sequence of subscription operations, oldest first. -/
def applyOps (st : ManagerState) (ops : List MMOp) : ManagerState :=
  ops.foldl applyOp st

/-- The document paths the manager currently caches, in cache order. -/
def cachePaths (st : ManagerState) : List String := st.cache.map (·.filePath)

/-- The cache entry as left behind by a value-changing at-path write. -/
def writtenEntry (fc : MetadataFileCache) (pathParts : List String) (v : JSVal) :
    MetadataFileCache :=
  { fc with
    metadata := setAtParent pathParts.dropLast ((pathParts.getLast?).getD "") v fc.metadata
    cyclesSinceLastUserInput := 0
    changed := true }

/-- The cache entry as left behind by an accepted external refresh. -/
def refreshedEntry (fc : MetadataFileCache) (frontmatter : JSVal) : MetadataFileCache :=
  { fc with
    metadata := copyFrontmatterWithoutPosition frontmatter
    cyclesSinceLastUserInput := 0 }

/-- Concrete metadata for the worked scenario of spec section 8:
the frontmatter object of a document holding one field, status: todo. -/
def demoMeta : JSVal := .obj (.cons "status" (.str "todo") .nil)

/-- A cache entry for the scenario document with one listener (subscriber
id1 bound to the path status), a staleness counter of 5 and a clean flag. -/
def demoEntry : MetadataFileCache :=
  { filePath := "note.md"
    metadata := demoMeta
    listeners := [⟨["status"], "id1"⟩]
    cyclesSinceLastUserInput := 5
    changed := false }

/-- A manager state caching only the scenario document. -/
def demoState : ManagerState := { cache := [demoEntry] }

/-- The scenario entry right after a local write: staleness counter 0,
dirty flag set. -/
def demoDirtyEntry : MetadataFileCache :=
  { filePath := "note.md"
    metadata := demoMeta
    listeners := [⟨["status"], "id1"⟩]
    cyclesSinceLastUserInput := 0
    changed := true }

/-- A manager state caching only the dirty scenario entry. -/
def demoDirtyState : ManagerState := { cache := [demoDirtyEntry] }

/-! ### Basic lemmas about the object model -/

theorem JSFields.get_set_same : ∀ (f : JSFields) (k : String) (v : JSVal),
    (f.set k v).get k = v
  | .nil, k, v => by simp [JSFields.set, JSFields.get]
  | .cons k2 v2 rest, k, v => by
      by_cases h : k2 == k
      · simp [JSFields.set, h, JSFields.get]
      · simp [JSFields.set, h, JSFields.get, get_set_same rest k v]

theorem traverse_append_getProp (ks : List String) (k : String) (root : JSVal) :
    traverseObjectByPath (ks ++ [k]) root = getProp (traverseObjectByPath ks root) k := by
  induction ks generalizing root with
  | nil =>
      cases root <;> simp [traverseObjectByPath, getProp]
  | cons k2 rest ih =>
      cases root <;> simp [traverseObjectByPath, getProp, ih]

theorem traverse_of_ne_nil (path : List String) (root : JSVal) (h : path ≠ []) :
    traverseObjectByPath path root =
      getProp (traverseObjectByPath path.dropLast root) ((path.getLast?).getD "") := by
  rcases List.eq_nil_or_concat path with rfl | ⟨ks, k, rfl⟩
  · exact absurd rfl h
  · rw [List.concat_eq_append, traverse_append_getProp]
    simp

theorem traverse_setAtParent (pp : List String) (k : String) (v : JSVal) (root : JSVal)
    (flds : JSFields) (h : traverseObjectByPath pp root = JSVal.obj flds) :
    traverseObjectByPath pp (setAtParent pp k v root) = JSVal.obj (flds.set k v) := by
  induction pp generalizing root flds with
  | nil =>
      simp only [traverseObjectByPath] at h
      subst h
      simp [setAtParent, traverseObjectByPath]
  | cons p rest ih =>
      cases root with
      | obj fields =>
          simp only [traverseObjectByPath] at h
          simp only [setAtParent, traverseObjectByPath, JSFields.get_set_same]
          exact ih (fields.get p) flds h
      | undefV => simp [traverseObjectByPath] at h
      | null => simp [traverseObjectByPath] at h
      | str s => simp [traverseObjectByPath] at h
      | num n => simp [traverseObjectByPath] at h
      | boolV b => simp [traverseObjectByPath] at h

/-! ### Lemmas about `replaceFirst` and `find?` -/

theorem find?_replaceFirst_self {p : α → Bool} {y : α} {l : List α} {x : α}
    (h : l.find? p = some x) (hy : p y = true) :
    (replaceFirst p y l).find? p = some y := by
  induction l with
  | nil => simp at h
  | cons a l ih =>
      by_cases ha : p a
      · simp [replaceFirst, ha, List.find?_cons_of_pos _ hy]
      · rw [List.find?_cons_of_neg _ ha] at h
        simp [replaceFirst, ha, List.find?_cons_of_neg _ ha, ih h]

theorem map_replaceFirst {p : α → Bool} {y : α} {l : List α} {x : α} (g : α → β)
    (h : l.find? p = some x) (hy : g y = g x) :
    (replaceFirst p y l).map g = l.map g := by
  induction l with
  | nil => simp at h
  | cons a l ih =>
      by_cases ha : p a
      · rw [List.find?_cons_of_pos _ ha] at h
        injection h with h
        subst h
        simp [replaceFirst, ha, hy]
      · rw [List.find?_cons_of_neg _ ha] at h
        simp [replaceFirst, ha, ih h]

theorem replaceFirst_eq_self {p : α → Bool} {y : α} {l : List α} {x : α}
    (h : l.find? p = some x) (he : replaceFirst p y l = l) : y = x := by
  induction l with
  | nil => simp at h
  | cons a l ih =>
      by_cases ha : p a
      · rw [List.find?_cons_of_pos _ ha] at h
        injection h with h
        subst h
        simp [replaceFirst, ha] at he
        exact he
      · rw [List.find?_cons_of_neg _ ha] at h
        simp [replaceFirst, ha] at he
        exact ih h he

theorem find?_filter_ne (l : List MetadataFileCache) (fp : String) :
    (l.filter (fun c => c.filePath != fp)).find? (fun c => c.filePath == fp) = none := by
  rw [List.find?_eq_none]
  intro x hx
  have hmem := (List.mem_filter.mp hx).2
  simpa using hmem

theorem find?_append_nil {p : α → Bool} {l : List α} (x : α)
    (h : l.find? p = none) (hx : p x = true) : (l ++ [x]).find? p = some x := by
  induction l with
  | nil => simp [List.find?_cons_of_pos _ hx]
  | cons a l ih =>
      by_cases ha : p a
      · rw [List.find?_cons_of_pos _ ha] at h
        exact absurd h (by simp)
      · rw [List.find?_cons_of_neg _ ha] at h
        rw [List.cons_append, List.find?_cons_of_neg _ ha]
        exact ih h

theorem find?_eq_none_iff_not_mem_map (l : List MetadataFileCache) (fp : String) :
    l.find? (fun c => c.filePath == fp) = none ↔ fp ∉ l.map (·.filePath) := by
  rw [List.find?_eq_none]
  simp only [List.mem_map, beq_iff_eq]
  constructor
  · rintro h ⟨c, hc, rfl⟩
    exact h c hc rfl
  · intro h c hc hcp
    exact h ⟨c, hc, hcp⟩

/-! ### Notification and tick characterizations -/

theorem filterMap_some_eq_map (f : α → β) (l : List α) :
    l.filterMap (fun a => some (f a)) = l.map f := by
  induction l with
  | nil => rfl
  | cons a l ih => simp [List.filterMap_cons, ih]

theorem notifyListeners_none_none (fc : MetadataFileCache) :
    notifyListeners fc none none =
      fc.listeners.map
        (fun l => ⟨l.uuid, traverseObjectByPath l.metadataPath fc.metadata⟩) := by
  simp [notifyListeners, exceptMatches, filterMap_some_eq_map]

theorem notifyListeners_path_except (fc : MetadataFileCache) (p : List String)
    (u : String) (hu : u ≠ "") :
    notifyListeners fc (some p) (some u) =
      fc.listeners.filterMap (fun l =>
        if u == l.uuid then none
        else if p == l.metadataPath then
          some ⟨l.uuid, traverseObjectByPath p fc.metadata⟩
        else none) := by
  unfold notifyListeners
  apply List.filterMap_congr
  intro l _
  have h1 : (u != "") = true := by simpa using hu
  simp [exceptMatches, h1]

theorem tickEntry_fst (e : MetadataFileCache) :
    (tickEntry e).1 =
      { e with changed := false, cyclesSinceLastUserInput := e.cyclesSinceLastUserInput + 1 } := by
  cases e with
  | mk fp m ls cy ch => cases ch <;> simp [tickEntry]

theorem tickEntry_snd (e : MetadataFileCache) :
    (tickEntry e).2 = if e.changed then some ⟨e.filePath, e.metadata⟩ else none := by
  by_cases h : e.changed <;> simp [tickEntry, h]

theorem updateEntries_eq (l : List MetadataFileCache) :
    updateEntries l =
      (l.map (fun e => (tickEntry e).1), l.filterMap (fun e => (tickEntry e).2)) := by
  induction l with
  | nil => rfl
  | cons e rest ih =>
      rw [List.map_cons, List.filterMap_cons]
      cases h : (tickEntry e).2 with
      | none => simp [updateEntries, ih, h]
      | some w => simp [updateEntries, ih, h]

theorem filter_writeBacks_of_not_mem (l : List MetadataFileCache) (fp : String)
    (h : fp ∉ l.map (·.filePath)) :
    (l.filterMap (fun e => (tickEntry e).2)).filter (fun w => w.filePath == fp) = [] := by
  induction l with
  | nil => rfl
  | cons e rest ih =>
      simp only [List.map_cons, List.mem_cons] at h
      push_neg at h
      rw [List.filterMap_cons]
      cases h2 : (tickEntry e).2 with
      | none => exact ih h.2
      | some w =>
          have hw : w.filePath = e.filePath := by
            rw [tickEntry_snd] at h2
            by_cases hc : e.changed
            · simp only [hc, if_pos] at h2
              injection h2 with h2
              rw [← h2]
            · simp [hc] at h2
          have hne : (w.filePath == fp) = false := by
            simp [hw]
            exact fun hh => h.1 hh.symm
          simp [List.filter_cons, hne, ih h.2]

theorem writeBacks_for_file (l : List MetadataFileCache) (fp : String)
    (fc : MetadataFileCache) (hnd : (l.map (·.filePath)).Nodup)
    (hf : l.find? (fun c => c.filePath == fp) = some fc) :
    (l.filterMap (fun e => (tickEntry e).2)).filter (fun w => w.filePath == fp) =
      if fc.changed then [⟨fp, fc.metadata⟩] else [] := by
  induction l with
  | nil => simp at hf
  | cons e rest ih =>
      rw [List.map_cons, List.nodup_cons] at hnd
      by_cases ha : e.filePath == fp
      · rw [List.find?_cons_of_pos (p := fun (c : MetadataFileCache) => c.filePath == fp) _ ha] at hf
        injection hf with hf
        subst hf
        have hfp : e.filePath = fp := by simpa using ha
        have hrest : fp ∉ rest.map (·.filePath) := hfp ▸ hnd.1
        rw [List.filterMap_cons, tickEntry_snd]
        by_cases hc : e.changed
        · have hb : (e.filePath == fp) = true := ha
          simp [hc, List.filter_cons, hb, filter_writeBacks_of_not_mem rest fp hrest, hfp]
        · simp [hc, filter_writeBacks_of_not_mem rest fp hrest]
      · rw [List.find?_cons_of_neg (p := fun (c : MetadataFileCache) => c.filePath == fp) _ ha] at hf
        rw [List.filterMap_cons]
        cases h2 : (tickEntry e).2 with
        | none => exact ih hnd.2 hf
        | some w =>
            have hw : w.filePath = e.filePath := by
              rw [tickEntry_snd] at h2
              by_cases hc : e.changed
              · simp only [hc, if_pos] at h2
                injection h2 with h2
                rw [← h2]
              · simp [hc] at h2
            have hne : (w.filePath == fp) = false := by
              rw [hw]
              simpa using ha
            simp [List.filter_cons, hne, ih hnd.2 hf]

/-! ### Cache-path distinctness across subscription operations -/

theorem register_found (st : ManagerState) (fp : String) (p : List String) (u : String)
    (m : JSVal) (fc : MetadataFileCache) (h : getCacheForFile st fp = some fc) :
    register st fp p u m =
      ({ st with cache := replaceFirst (fun c => c.filePath == fp) ({ fc with listeners := fc.listeners ++ [⟨p, u⟩] }) st.cache },
       traverseObjectByPath p fc.metadata) := by
  simp [register, h]

theorem register_none (st : ManagerState) (fp : String) (p : List String) (u : String)
    (m : JSVal) (h : getCacheForFile st fp = none) :
    register st fp p u m =
      ({ st with cache := st.cache ++ [⟨fp, m, [⟨p, u⟩], 0, false⟩] },
       traverseObjectByPath p m) := by
  simp [register, h]

theorem unregister_none (st : ManagerState) (fp u : String)
    (h : getCacheForFile st fp = none) : unregister st fp u = st := by
  simp [unregister, h]

theorem unregister_found_empty (st : ManagerState) (fp u : String)
    (fc : MetadataFileCache) (h : getCacheForFile st fp = some fc)
    (he : fc.listeners.filter (fun l => l.uuid != u) = []) :
    unregister st fp u =
      { st with cache := st.cache.filter (fun c => c.filePath != fp) } := by
  simp [unregister, h, he]

theorem unregister_found_nonempty (st : ManagerState) (fp u : String)
    (fc : MetadataFileCache) (h : getCacheForFile st fp = some fc)
    (he : fc.listeners.filter (fun l => l.uuid != u) ≠ []) :
    unregister st fp u =
      { st with cache := replaceFirst (fun c => c.filePath == fp) ({ fc with listeners := fc.listeners.filter (fun l => l.uuid != u) }) st.cache } := by
  have he2 : (fc.listeners.filter (fun l => l.uuid != u)).isEmpty = false := by
    simpa [List.isEmpty_iff] using he
  simp [unregister, h, he2]

theorem nodup_register (st : ManagerState) (fp : String) (p : List String) (u : String)
    (m : JSVal) (h : (cachePaths st).Nodup) :
    (cachePaths (register st fp p u m).1).Nodup := by
  unfold cachePaths at h ⊢
  cases hf : getCacheForFile st fp with
  | some fc =>
      have hf2 : st.cache.find? (fun c => c.filePath == fp) = some fc := hf
      rw [register_found st fp p u m fc hf]
      dsimp only
      rw [map_replaceFirst (y := { fc with listeners := fc.listeners ++ [⟨p, u⟩] }) (fun c => c.filePath) hf2 rfl]
      exact h
  | none =>
      rw [register_none st fp p u m hf]
      simp only [List.map_append, List.map_cons, List.map_nil]
      have hf2 : st.cache.find? (fun c => c.filePath == fp) = none := hf
      have hnm : fp ∉ st.cache.map (·.filePath) :=
        (find?_eq_none_iff_not_mem_map st.cache fp).mp hf2
      have hperm := List.perm_append_singleton fp (st.cache.map (·.filePath))
      rw [List.Perm.nodup_iff hperm, List.nodup_cons]
      exact ⟨hnm, h⟩

theorem nodup_unregister (st : ManagerState) (fp u : String)
    (h : (cachePaths st).Nodup) : (cachePaths (unregister st fp u)).Nodup := by
  unfold cachePaths at h ⊢
  cases hf : getCacheForFile st fp with
  | none => rw [unregister_none st fp u hf]; exact h
  | some fc =>
      by_cases he : fc.listeners.filter (fun l => l.uuid != u) = []
      · rw [unregister_found_empty st fp u fc hf he]
        exact ((List.filter_sublist st.cache).map (·.filePath)).nodup h
      · rw [unregister_found_nonempty st fp u fc hf he]
        have hf2 : st.cache.find? (fun c => c.filePath == fp) = some fc := hf
        dsimp only
        rw [map_replaceFirst (y := { fc with listeners := fc.listeners.filter (fun l => l.uuid != u) }) (fun c => c.filePath) hf2 rfl]
        exact h

theorem nodup_applyOps_aux : ∀ (ops : List MMOp) (st : ManagerState),
    (cachePaths st).Nodup → (cachePaths (applyOps st ops)).Nodup
  | [], st, h => h
  | op :: rest, st, h => by
      rw [applyOps, List.foldl_cons]
      refine nodup_applyOps_aux rest _ ?_
      cases op with
      | regOp fp p u m => exact nodup_register st fp p u m h
      | unregOp fp u => exact nodup_unregister st fp u h

/-! ### Branch equations for the update operations -/

theorem updateCache_none (st : ManagerState) (m : JSVal) (fp : String) (u : Option String)
    (h : getCacheForFile st fp = none) : updateCache st m fp u = (st, []) := by
  simp [updateCache, h]

theorem updateCache_found (st : ManagerState) (m : JSVal) (fp : String) (u : Option String)
    (fc : MetadataFileCache) (h : getCacheForFile st fp = some fc) :
    updateCache st m fp u =
      ({ st with cache := replaceFirst (fun c => c.filePath == fp) ({ fc with metadata := m, cyclesSinceLastUserInput := 0 }) st.cache },
       notifyListeners ({ fc with metadata := m, cyclesSinceLastUserInput := 0 }) none u) := by
  simp [updateCache, h]

theorem upic_none (st : ManagerState) (v : JSVal) (pathParts : List String) (fp : String)
    (u : Option String) (h : getCacheForFile st fp = none) :
    updatePropertyInCache st v pathParts fp u = (st, [], none) := by
  simp [updatePropertyInCache, h]

theorem upic_missing_parent (st : ManagerState) (v : JSVal) (pathParts : List String)
    (fp : String) (u : Option String) (fc : MetadataFileCache)
    (h : getCacheForFile st fp = some fc)
    (hp : traverseObjectByPath pathParts.dropLast fc.metadata = JSVal.undefV) :
    updatePropertyInCache st v pathParts fp u =
      (st, [], some ("The parent of " ++ String.intercalate "." pathParts ++
        " does not exist in Object, please create the parent first")) := by
  simp [updatePropertyInCache, h, hp]

theorem upic_skip (st : ManagerState) (v : JSVal) (pathParts : List String)
    (fp : String) (u : Option String) (fc : MetadataFileCache)
    (h : getCacheForFile st fp = some fc)
    (hp : traverseObjectByPath pathParts.dropLast fc.metadata ≠ JSVal.undefV)
    (hc : getProp (traverseObjectByPath pathParts.dropLast fc.metadata)
      ((pathParts.getLast?).getD "") = v) :
    updatePropertyInCache st v pathParts fp u = (st, [], none) := by
  simp [updatePropertyInCache, h, hp, hc]

theorem upic_write (st : ManagerState) (v : JSVal) (pathParts : List String)
    (fp : String) (u : Option String) (fc : MetadataFileCache) (flds : JSFields)
    (h : getCacheForFile st fp = some fc)
    (hp : traverseObjectByPath pathParts.dropLast fc.metadata = JSVal.obj flds)
    (hc : getProp (JSVal.obj flds) ((pathParts.getLast?).getD "") ≠ v) :
    updatePropertyInCache st v pathParts fp u =
      ({ st with cache := replaceFirst (fun c => c.filePath == fp) (writtenEntry fc pathParts v) st.cache },
       notifyListeners (writtenEntry fc pathParts v) (some pathParts) u, none) := by
  simp [updatePropertyInCache, h, hp, hc, writtenEntry]

theorem ucofu_none (st : ManagerState) (fp : String) (fm : JSVal)
    (h : getCacheForFile st fp = none) :
    updateCacheOnFrontmatterUpdate st fp fm = (st, []) := by
  simp [updateCacheOnFrontmatterUpdate, h]

theorem ucofu_suppressed (st : ManagerState) (fp : String) (fm : JSVal)
    (fc : MetadataFileCache) (h : getCacheForFile st fp = some fc)
    (hcy : fc.cyclesSinceLastUserInput < st.updateCycleThreshold) :
    updateCacheOnFrontmatterUpdate st fp fm = (st, []) := by
  simp [updateCacheOnFrontmatterUpdate, h, hcy]

theorem ucofu_accepted (st : ManagerState) (fp : String) (fm : JSVal)
    (fc : MetadataFileCache) (h : getCacheForFile st fp = some fc)
    (hcy : st.updateCycleThreshold ≤ fc.cyclesSinceLastUserInput) :
    updateCacheOnFrontmatterUpdate st fp fm =
      ({ st with cache := replaceFirst (fun c => c.filePath == fp) (refreshedEntry fc fm) st.cache },
       notifyListeners (refreshedEntry fc fm) none none) := by
  have hlt : ¬fc.cyclesSinceLastUserInput < st.updateCycleThreshold := not_lt.mpr hcy
  simp [updateCacheOnFrontmatterUpdate, h, hlt, refreshedEntry]

theorem update_eq (st : ManagerState) :
    update st =
      ({ st with cache := st.cache.map (fun e => (tickEntry e).1) },
       st.cache.filterMap (fun e => (tickEntry e).2)) := by
  rw [update, updateEntries_eq]

/-! ### Claim theorems -/

/-- C9: for a document that has no cache entry, a whole-cache update and an
at-path write are silent no-ops: they return without error, leave the
state untouched, create no entry and notify no listener — even when the
write targets a path whose parent does not exist. -/
theorem missing_entry_noop (st : ManagerState) (fp : String) (m v : JSVal)
    (path : List String) (u u2 : Option String)
    (h : getCacheForFile st fp = none) :
    updateCache st m fp u = (st, []) ∧
    updatePropertyInCache st v path fp u2 = (st, [], none) :=
  ⟨updateCache_none st m fp u h, upic_none st v path fp u2 h⟩

/-- Witness for C9: both no-ops at a concrete uncached document, for a
path whose parent is absent from the cached metadata. -/
theorem missing_entry_noop_witness :
    updateCache demoState demoMeta "other.md" none = (demoState, []) ∧
    updatePropertyInCache demoState (JSVal.str "x") ["a", "b"] "other.md" none =
      (demoState, [], none) :=
  missing_entry_noop demoState "other.md" demoMeta (JSVal.str "x") ["a", "b"] none none
    (by decide)

/-- C3: a write whose target path has an absent parent container reports an
error naming the path to the caller and leaves the cache state completely
unmodified: no partial write, no dirty flag, no counter reset, no
notification, and no intermediate containers are created. -/
theorem write_missing_parent_error (st : ManagerState) (fp : String) (v : JSVal)
    (path : List String) (u : Option String) (fc : MetadataFileCache)
    (h : getCacheForFile st fp = some fc)
    (hp : traverseObjectByPath path.dropLast fc.metadata = JSVal.undefV) :
    updatePropertyInCache st v path fp u =
      (st, [], some ("The parent of " ++ String.intercalate "." path ++
        " does not exist in Object, please create the parent first")) :=
  upic_missing_parent st v path fp u fc h hp

/-- Witness for C3: a write to a.b on a document whose metadata has no
field a errors out and leaves the state unchanged. -/
theorem write_missing_parent_error_witness :
    updatePropertyInCache demoState (JSVal.str "x") ["a", "b"] "note.md" none =
      (demoState, [], some ("The parent of " ++ String.intercalate "." ["a", "b"] ++
        " does not exist in Object, please create the parent first")) :=
  write_missing_parent_error demoState "note.md" (JSVal.str "x") ["a", "b"] none demoEntry
    (by decide) (by decide)

/-- C2: writing a value already stored at the target path is a no-op (no
notification, no dirty flag, no counter reset), and any write that
returns without error makes an immediate identical re-write a no-op, so
two identical writes in a row produce notifications only on the first. -/
theorem write_idempotent (st : ManagerState) (fp : String) (path : List String)
    (v : JSVal) (u : Option String) :
    (∀ fc, getCacheForFile st fp = some fc → path ≠ [] →
      traverseObjectByPath path.dropLast fc.metadata ≠ JSVal.undefV →
      traverseObjectByPath path fc.metadata = v →
      updatePropertyInCache st v path fp u = (st, [], none)) ∧
    (∀ st2 ns, updatePropertyInCache st v path fp u = (st2, ns, none) →
      updatePropertyInCache st2 v path fp u = (st2, [], none)) := by
  constructor
  · intro fc h hne hp hv
    rw [traverse_of_ne_nil path fc.metadata hne] at hv
    exact upic_skip st v path fp u fc h hp hv
  · intro st2 ns heq
    cases hf : getCacheForFile st fp with
    | none =>
        rw [upic_none st v path fp u hf] at heq
        have h1 : st = st2 := congrArg Prod.fst heq
        subst h1
        exact upic_none st v path fp u hf
    | some fc =>
        by_cases hp : traverseObjectByPath path.dropLast fc.metadata = JSVal.undefV
        · rw [upic_missing_parent st v path fp u fc hf hp] at heq
          have h2 := congrArg (fun x => x.2.2) heq
          simp at h2
        · by_cases hcv : getProp (traverseObjectByPath path.dropLast fc.metadata)
              ((path.getLast?).getD "") = v
          · rw [upic_skip st v path fp u fc hf hp hcv] at heq
            have h1 : st = st2 := congrArg Prod.fst heq
            subst h1
            exact upic_skip st v path fp u fc hf hp hcv
          · cases hpv : traverseObjectByPath path.dropLast fc.metadata with
            | undefV => exact absurd hpv hp
            | obj flds =>
                rw [hpv] at hcv
                rw [upic_write st v path fp u fc flds hf hpv hcv] at heq
                have h1 := congrArg Prod.fst heq
                dsimp only at h1
                subst h1
                have hf2 : st.cache.find? (fun c => c.filePath == fp) = some fc := hf
                have hpfc : (fc.filePath == fp) = true :=
                  List.find?_some (p := fun (c : MetadataFileCache) => c.filePath == fp) hf2
                have hw : ((writtenEntry fc path v).filePath == fp) = true := by
                  simpa [writtenEntry] using hpfc
                have hfw : getCacheForFile { st with cache := replaceFirst (fun c => c.filePath == fp) (writtenEntry fc path v) st.cache } fp = some (writtenEntry fc path v) :=
                  find?_replaceFirst_self hf2 hw
                have hmw : (writtenEntry fc path v).metadata =
                    setAtParent path.dropLast ((path.getLast?).getD "") v fc.metadata := rfl
                have hp2 : traverseObjectByPath path.dropLast (writtenEntry fc path v).metadata =
                    JSVal.obj (flds.set ((path.getLast?).getD "") v) := by
                  rw [hmw]
                  exact traverse_setAtParent _ _ _ _ _ hpv
                have hp2ne : traverseObjectByPath path.dropLast
                    (writtenEntry fc path v).metadata ≠ JSVal.undefV := by
                  rw [hp2]
                  simp
                have hc2 : getProp (traverseObjectByPath path.dropLast
                    (writtenEntry fc path v).metadata) ((path.getLast?).getD "") = v := by
                  rw [hp2]
                  simp [getProp, JSFields.get_set_same]
                exact upic_skip _ v path fp u (writtenEntry fc path v) hfw hp2ne hc2
            | null =>
                rw [hpv] at hcv
                simp [updatePropertyInCache, hf, hpv, hcv] at heq
            | str s =>
                rw [hpv] at hcv
                simp [updatePropertyInCache, hf, hpv, hcv] at heq
            | num n =>
                rw [hpv] at hcv
                simp [updatePropertyInCache, hf, hpv, hcv] at heq
            | boolV b =>
                rw [hpv] at hcv
                simp [updatePropertyInCache, hf, hpv, hcv] at heq

/-- Witness for C2: writing the already-stored value todo to status is a
no-op, and after writing done once, writing done again is a no-op. -/
theorem write_idempotent_witness :
    (updatePropertyInCache demoState (JSVal.str "todo") ["status"] "note.md" none =
      (demoState, [], none)) ∧
    (∀ st2 ns, updatePropertyInCache demoState (JSVal.str "done") ["status"] "note.md" none =
        (st2, ns, none) →
      updatePropertyInCache st2 (JSVal.str "done") ["status"] "note.md" none =
        (st2, [], none)) :=
  ⟨(write_idempotent demoState "note.md" ["status"] (JSVal.str "todo") none).1 demoEntry
      (by decide) (by decide) (by decide) (by decide),
   (write_idempotent demoState "note.md" ["status"] (JSVal.str "done") none).2⟩

/-- C1: an external change event on a cached document is suppressed (state
and listeners untouched) exactly when the staleness counter is below
`updateCycleThreshold` (default 5); once the counter has reached the
threshold the event is accepted: the metadata is replaced wholesale by the
copied frontmatter, the counter resets to 0 and every listener is
notified with its own path's new value. -/
theorem external_change_suppression (st : ManagerState) (fp : String) (fm : JSVal)
    (fc : MetadataFileCache) (h : getCacheForFile st fp = some fc)
    (hpos : 0 < st.updateCycleThreshold) :
    (updateCacheOnFrontmatterUpdate st fp fm = (st, []) ↔
      fc.cyclesSinceLastUserInput < st.updateCycleThreshold) ∧
    (st.updateCycleThreshold ≤ fc.cyclesSinceLastUserInput →
      updateCacheOnFrontmatterUpdate st fp fm =
        ({ st with cache := replaceFirst (fun c => c.filePath == fp) (refreshedEntry fc fm) st.cache },
         fc.listeners.map (fun l => ⟨l.uuid, traverseObjectByPath l.metadataPath (copyFrontmatterWithoutPosition fm)⟩)) ∧
      (refreshedEntry fc fm).metadata = copyFrontmatterWithoutPosition fm ∧
      (refreshedEntry fc fm).cyclesSinceLastUserInput = 0) ∧
    initialManager.updateCycleThreshold = 5 := by
  refine ⟨⟨?_, fun hlt => ucofu_suppressed st fp fm fc h hlt⟩, fun hcy => ?_, rfl⟩
  · intro heq
    by_contra hge
    rw [not_lt] at hge
    rw [ucofu_accepted st fp fm fc h hge] at heq
    have hcache := congrArg (fun x => ManagerState.cache (Prod.fst x)) heq
    dsimp only at hcache
    have hf2 : st.cache.find? (fun c => c.filePath == fp) = some fc := h
    have hre := replaceFirst_eq_self hf2 hcache
    have hcy0 := congrArg MetadataFileCache.cyclesSinceLastUserInput hre
    simp [refreshedEntry] at hcy0
    omega
  · rw [ucofu_accepted st fp fm fc h hcy, notifyListeners_none_none]
    refine ⟨?_, rfl, rfl⟩
    simp [refreshedEntry]

/-- Witness for C1: at counter 5 and threshold 5 the external change is
not suppressed. -/
theorem external_change_suppression_witness :
    updateCacheOnFrontmatterUpdate demoState "note.md"
        (JSVal.obj (.cons "status" (.str "ext") (.cons "position" .null .nil))) =
      (demoState, []) ↔
    demoEntry.cyclesSinceLastUserInput < demoState.updateCycleThreshold :=
  (external_change_suppression demoState "note.md"
      (JSVal.obj (.cons "status" (.str "ext") (.cons "position" .null .nil))) demoEntry
      (by decide) (by decide)).1

/-- C4: a value-changing write with excluded subscriber id u notifies
exactly the listeners whose subscribed path structurally equals the
written path and whose id differs from u, each with the newly written
value; no notification ever carries the excluded id, so the writer, a
sibling-path listener and a prefix-path listener are never notified. -/
theorem write_notifies_exact_path (st : ManagerState) (fp : String) (path : List String)
    (v : JSVal) (u : String) (fc : MetadataFileCache) (flds : JSFields)
    (h : getCacheForFile st fp = some fc) (hu : u ≠ "") (hne : path ≠ [])
    (hp : traverseObjectByPath path.dropLast fc.metadata = JSVal.obj flds)
    (hc : getProp (JSVal.obj flds) ((path.getLast?).getD "") ≠ v) :
    (updatePropertyInCache st v path fp (some u)).2.1 =
      fc.listeners.filterMap (fun l =>
        if u == l.uuid then none
        else if path == l.metadataPath then some ⟨l.uuid, v⟩ else none) ∧
    ∀ x, Notification.mk u x ∉ (updatePropertyInCache st v path fp (some u)).2.1 := by
  have hkey : traverseObjectByPath path (writtenEntry fc path v).metadata = v := by
    rw [traverse_of_ne_nil path _ hne]
    have hmw : (writtenEntry fc path v).metadata =
        setAtParent path.dropLast ((path.getLast?).getD "") v fc.metadata := rfl
    rw [hmw, traverse_setAtParent _ _ _ _ _ hp]
    simp [getProp, JSFields.get_set_same]
  have hmain : (updatePropertyInCache st v path fp (some u)).2.1 =
      fc.listeners.filterMap (fun l =>
        if u == l.uuid then none
        else if path == l.metadataPath then some ⟨l.uuid, v⟩ else none) := by
    rw [upic_write st v path fp (some u) fc flds h hp hc]
    dsimp only
    rw [notifyListeners_path_except (writtenEntry fc path v) path u hu, hkey]
    rfl
  refine ⟨hmain, fun x hx => ?_⟩
  rw [hmain] at hx
  obtain ⟨l, hl, hfx⟩ := List.mem_filterMap.mp hx
  by_cases h1 : u == l.uuid
  · simp [h1] at hfx
  · by_cases h2 : path == l.metadataPath
    · simp [h1, h2] at hfx
      exact absurd hfx.1.symm (by simpa using h1)
    · simp [h1, h2] at hfx

/-- Witness for C4: writing done to status with writer id excluded
notifies exactly the one listener on status. -/
theorem write_notifies_exact_path_witness :
    (updatePropertyInCache demoState (JSVal.str "done") ["status"] "note.md"
        (some "writer")).2.1 =
      demoEntry.listeners.filterMap (fun l =>
        if "writer" == l.uuid then none
        else if ["status"] == l.metadataPath then some ⟨l.uuid, JSVal.str "done"⟩
        else none) :=
  (write_notifies_exact_path demoState "note.md" ["status"] (JSVal.str "done") "writer"
      demoEntry (.cons "status" (.str "todo") .nil) (by decide) (by decide) (by decide)
      (by decide) (by decide)).1

/-- C6: on a scheduler tick every dirty entry is written back once with its
current in-memory metadata and its flag cleared, clean entries produce no
write-back, every entry's staleness counter is incremented by exactly one,
and (given distinct cache paths) a document's write-backs in one tick are
exactly one when dirty — carrying the final merged state — and none when
clean. -/
theorem scheduler_tick (st : ManagerState) :
    ((update st).1.cache =
      st.cache.map (fun e => { e with changed := false, cyclesSinceLastUserInput := e.cyclesSinceLastUserInput + 1 }) ∧
     (update st).2 =
      st.cache.filterMap (fun e => if e.changed then some ⟨e.filePath, e.metadata⟩ else none)) ∧
    (∀ fp fc, (cachePaths st).Nodup → getCacheForFile st fp = some fc →
      (update st).2.filter (fun w => w.filePath == fp) =
        if fc.changed then [⟨fp, fc.metadata⟩] else []) := by
  have h1 : (update st).1.cache = st.cache.map (fun e => (tickEntry e).1) := by
    rw [update_eq]
  have h2 : (update st).2 = st.cache.filterMap (fun e => (tickEntry e).2) := by
    rw [update_eq]
  refine ⟨⟨?_, ?_⟩, ?_⟩
  · rw [h1]
    exact List.map_congr_left (fun e _ => tickEntry_fst e)
  · rw [h2]
    exact List.filterMap_congr (fun e _ => tickEntry_snd e)
  · intro fp fc hnd hf
    rw [h2]
    exact writeBacks_for_file st.cache fp fc hnd hf

/-- Witness for C6: a tick on a dirty single-entry cache issues exactly one
write-back for the document. -/
theorem scheduler_tick_witness :
    (update demoDirtyState).2.filter (fun w => w.filePath == "note.md") =
      (if demoDirtyEntry.changed then [⟨"note.md", demoDirtyEntry.metadata⟩] else []) :=
  (scheduler_tick demoDirtyState).2 "note.md" demoDirtyEntry (by decide) (by decide)

/-- C7: the staleness counter is reset to 0 by every whole-cache write, by
every value-changing at-path write and by every accepted external refresh;
a skipped or failed at-path write and a suppressed external event leave
the state unchanged; a scheduler tick increments every entry's counter by
exactly one; and register and unregister never change an existing entry's
counter (a newly created entry starts at 0). -/
theorem staleness_counter_spec :
    (∀ st m fp u fc, getCacheForFile st fp = some fc →
      getCacheForFile (updateCache st m fp u).1 fp =
        some { fc with metadata := m, cyclesSinceLastUserInput := 0 }) ∧
    (∀ st v path fp u fc flds, getCacheForFile st fp = some fc →
      traverseObjectByPath path.dropLast fc.metadata = JSVal.obj flds →
      getProp (JSVal.obj flds) ((path.getLast?).getD "") ≠ v →
      getCacheForFile (updatePropertyInCache st v path fp u).1 fp =
        some (writtenEntry fc path v) ∧
      (writtenEntry fc path v).cyclesSinceLastUserInput = 0) ∧
    (∀ st v path fp u fc, getCacheForFile st fp = some fc →
      traverseObjectByPath path.dropLast fc.metadata ≠ JSVal.undefV →
      getProp (traverseObjectByPath path.dropLast fc.metadata) ((path.getLast?).getD "") = v →
      (updatePropertyInCache st v path fp u).1 = st) ∧
    (∀ st v path fp u fc, getCacheForFile st fp = some fc →
      traverseObjectByPath path.dropLast fc.metadata = JSVal.undefV →
      (updatePropertyInCache st v path fp u).1 = st) ∧
    (∀ st fp fm fc, getCacheForFile st fp = some fc →
      st.updateCycleThreshold ≤ fc.cyclesSinceLastUserInput →
      getCacheForFile (updateCacheOnFrontmatterUpdate st fp fm).1 fp =
        some (refreshedEntry fc fm) ∧
      (refreshedEntry fc fm).cyclesSinceLastUserInput = 0) ∧
    (∀ st fp fm fc, getCacheForFile st fp = some fc →
      fc.cyclesSinceLastUserInput < st.updateCycleThreshold →
      (updateCacheOnFrontmatterUpdate st fp fm).1 = st) ∧
    (∀ st, (update st).1.cache.map (·.cyclesSinceLastUserInput) =
      st.cache.map (fun e => e.cyclesSinceLastUserInput + 1)) ∧
    (∀ st fp p u m fc, getCacheForFile st fp = some fc →
      (register st fp p u m).1.cache.map (·.cyclesSinceLastUserInput) =
        st.cache.map (·.cyclesSinceLastUserInput)) ∧
    (∀ st fp p u m, getCacheForFile st fp = none →
      (register st fp p u m).1.cache.map (·.cyclesSinceLastUserInput) =
        st.cache.map (·.cyclesSinceLastUserInput) ++ [0]) ∧
    (∀ st fp u, List.Sublist
      ((unregister st fp u).cache.map (·.cyclesSinceLastUserInput))
      (st.cache.map (·.cyclesSinceLastUserInput))) := by
  refine ⟨?_, ?_, ?_, ?_, ?_, ?_, ?_, ?_, ?_, ?_⟩
  · intro st m fp u fc h
    rw [updateCache_found st m fp u fc h]
    dsimp only
    have hf2 : st.cache.find? (fun c => c.filePath == fp) = some fc := h
    have hpfc := List.find?_some (p := fun (c : MetadataFileCache) => c.filePath == fp) hf2
    exact find?_replaceFirst_self hf2 (by simpa using hpfc)
  · intro st v path fp u fc flds h hp hc
    rw [upic_write st v path fp u fc flds h hp hc]
    dsimp only
    have hf2 : st.cache.find? (fun c => c.filePath == fp) = some fc := h
    have hpfc := List.find?_some (p := fun (c : MetadataFileCache) => c.filePath == fp) hf2
    exact ⟨find?_replaceFirst_self hf2 (by simpa [writtenEntry] using hpfc), rfl⟩
  · intro st v path fp u fc h hp hc
    rw [upic_skip st v path fp u fc h hp hc]
  · intro st v path fp u fc h hp
    rw [upic_missing_parent st v path fp u fc h hp]
  · intro st fp fm fc h hcy
    rw [ucofu_accepted st fp fm fc h hcy]
    dsimp only
    have hf2 : st.cache.find? (fun c => c.filePath == fp) = some fc := h
    have hpfc := List.find?_some (p := fun (c : MetadataFileCache) => c.filePath == fp) hf2
    exact ⟨find?_replaceFirst_self hf2 (by simpa [refreshedEntry] using hpfc), rfl⟩
  · intro st fp fm fc h hcy
    rw [ucofu_suppressed st fp fm fc h hcy]
  · intro st
    rw [update_eq]
    dsimp only
    rw [List.map_map]
    apply List.map_congr_left
    intro e _
    simp [tickEntry_fst]
  · intro st fp p u m fc h
    rw [register_found st fp p u m fc h]
    dsimp only
    have hf2 : st.cache.find? (fun c => c.filePath == fp) = some fc := h
    exact map_replaceFirst (y := { fc with listeners := fc.listeners ++ [⟨p, u⟩] })
      (fun c => c.cyclesSinceLastUserInput) hf2 rfl
  · intro st fp p u m h
    rw [register_none st fp p u m h]
    simp
  · intro st fp u
    cases hf : getCacheForFile st fp with
    | none =>
        rw [unregister_none st fp u hf]
    | some fc =>
        by_cases he : fc.listeners.filter (fun l => l.uuid != u) = []
        · rw [unregister_found_empty st fp u fc hf he]
          exact (List.filter_sublist st.cache).map _
        · rw [unregister_found_nonempty st fp u fc hf he]
          dsimp only
          have hf2 : st.cache.find? (fun c => c.filePath == fp) = some fc := hf
          rw [map_replaceFirst (y := { fc with listeners := fc.listeners.filter (fun l => l.uuid != u) }) (fun c => c.cyclesSinceLastUserInput) hf2 rfl]

/-- Witness for C7: a whole-cache write on the cached scenario document
resets its staleness counter to 0. -/
theorem staleness_counter_spec_witness :
    getCacheForFile (updateCache demoState demoMeta "note.md" none).1 "note.md" =
      some { demoEntry with metadata := demoMeta, cyclesSinceLastUserInput := 0 } :=
  staleness_counter_spec.1 demoState demoMeta "note.md" none demoEntry (by decide)

/-- C8: once the last listener of a document is unregistered its cache
entry is gone, and a subsequent register creates a fresh entry whose
metadata and seeded signal value come from the external store fetch, never
from the previously cached state. -/
theorem cache_teardown_refetch (st : ManagerState) (fp u : String)
    (fc : MetadataFileCache) (h : getCacheForFile st fp = some fc)
    (he : fc.listeners.filter (fun l => l.uuid != u) = []) :
    getCacheForFile (unregister st fp u) fp = none ∧
    ∀ p u2 m, (register (unregister st fp u) fp p u2 m).2 = traverseObjectByPath p m ∧
      getCacheForFile (register (unregister st fp u) fp p u2 m).1 fp =
        some ⟨fp, m, [⟨p, u2⟩], 0, false⟩ := by
  have hnone : getCacheForFile (unregister st fp u) fp = none := by
    rw [unregister_found_empty st fp u fc h he]
    exact find?_filter_ne st.cache fp
  refine ⟨hnone, fun p u2 m => ?_⟩
  rw [register_none (unregister st fp u) fp p u2 m hnone]
  dsimp only
  refine ⟨rfl, ?_⟩
  have hx : ((⟨fp, m, [⟨p, u2⟩], 0, false⟩ : MetadataFileCache).filePath == fp) = true := by
    simp
  exact find?_append_nil _ hnone hx

/-- Witness for C8: after unregistering the only listener, a fresh
registration is seeded from the store value, not the old cache. -/
theorem cache_teardown_refetch_witness :
    getCacheForFile (unregister demoState "note.md" "id1") "note.md" = none ∧
    (register (unregister demoState "note.md" "id1") "note.md" ["status"] "id2"
        (JSVal.obj (.cons "status" (.str "fresh") .nil))).2 =
      traverseObjectByPath ["status"] (JSVal.obj (.cons "status" (.str "fresh") .nil)) ∧
    getCacheForFile (register (unregister demoState "note.md" "id1") "note.md" ["status"]
        "id2" (JSVal.obj (.cons "status" (.str "fresh") .nil))).1 "note.md" =
      some ⟨"note.md", JSVal.obj (.cons "status" (.str "fresh") .nil),
        [⟨["status"], "id2"⟩], 0, false⟩ := by
  have h := cache_teardown_refetch demoState "note.md" "id1" demoEntry (by decide) (by decide)
  exact ⟨h.1, h.2 ["status"] "id2" (JSVal.obj (.cons "status" (.str "fresh") .nil))⟩

/-- C5: every state reachable from the empty manager by register and
unregister operations has pairwise distinct cache paths (at most one entry
per document); register reuses the entry for an already-cached document
(appending only a listener) and creates exactly one fresh entry otherwise;
unregister removes exactly the listeners of the given subscriber id and
deletes the entry once its listener list is empty. -/
theorem cache_registry_unique :
    (∀ ops, (cachePaths (applyOps initialManager ops)).Nodup) ∧
    (∀ st fp p u m fc, getCacheForFile st fp = some fc →
      cachePaths (register st fp p u m).1 = cachePaths st ∧
      getCacheForFile (register st fp p u m).1 fp =
        some { fc with listeners := fc.listeners ++ [⟨p, u⟩] }) ∧
    (∀ st fp p u m, getCacheForFile st fp = none →
      (register st fp p u m).1.cache = st.cache ++ [⟨fp, m, [⟨p, u⟩], 0, false⟩]) ∧
    (∀ st fp u fc, getCacheForFile st fp = some fc →
      fc.listeners.filter (fun l => l.uuid != u) ≠ [] →
      getCacheForFile (unregister st fp u) fp =
        some { fc with listeners := fc.listeners.filter (fun l => l.uuid != u) } ∧
      ∀ l, l ∈ fc.listeners.filter (fun l2 => l2.uuid != u) ↔
        (l ∈ fc.listeners ∧ l.uuid ≠ u)) ∧
    (∀ st fp u fc, getCacheForFile st fp = some fc →
      fc.listeners.filter (fun l => l.uuid != u) = [] →
      getCacheForFile (unregister st fp u) fp = none) := by
  refine ⟨fun ops => nodup_applyOps_aux ops initialManager (by simp [initialManager, cachePaths]),
    ?_, ?_, ?_, ?_⟩
  · intro st fp p u m fc h
    rw [register_found st fp p u m fc h]
    have hf2 : st.cache.find? (fun c => c.filePath == fp) = some fc := h
    constructor
    · unfold cachePaths
      dsimp only
      exact map_replaceFirst (y := { fc with listeners := fc.listeners ++ [⟨p, u⟩] })
        (fun c => c.filePath) hf2 rfl
    · dsimp only
      have hpfc := List.find?_some (p := fun (c : MetadataFileCache) => c.filePath == fp) hf2
      exact find?_replaceFirst_self hf2 (by simpa using hpfc)
  · intro st fp p u m h
    rw [register_none st fp p u m h]
  · intro st fp u fc h he
    constructor
    · rw [unregister_found_nonempty st fp u fc h he]
      have hf2 : st.cache.find? (fun c => c.filePath == fp) = some fc := h
      have hpfc := List.find?_some (p := fun (c : MetadataFileCache) => c.filePath == fp) hf2
      exact find?_replaceFirst_self hf2 (by simpa using hpfc)
    · intro l
      simp [List.mem_filter]
  · intro st fp u fc h he
    rw [unregister_found_empty st fp u fc h he]
    exact find?_filter_ne st.cache fp

/-- Witness for C5: registering a second listener on the cached scenario
document leaves the set of cached paths unchanged. -/
theorem cache_registry_unique_witness :
    cachePaths (register demoState "note.md" ["done"] "id9" demoMeta).1 =
      cachePaths demoState :=
  (cache_registry_unique.2.1 demoState "note.md" ["done"] "id9" demoMeta demoEntry
    (by decide)).1

/-- C10: an accepted external change stores the copied frontmatter with its
position key removed (a value-level shallow copy, not the host's tree),
leaves the dirty flag untouched, and on a clean entry causes no write-back
for that document at the next scheduler tick. -/
theorem external_refresh_frame (st : ManagerState) (fp : String) (fm : JSVal)
    (fc : MetadataFileCache) (h : getCacheForFile st fp = some fc)
    (hcy : st.updateCycleThreshold ≤ fc.cyclesSinceLastUserInput)
    (hnd : (cachePaths st).Nodup) :
    getCacheForFile (updateCacheOnFrontmatterUpdate st fp fm).1 fp =
      some (refreshedEntry fc fm) ∧
    (refreshedEntry fc fm).metadata = copyFrontmatterWithoutPosition fm ∧
    (∀ flds, fm = JSVal.obj flds →
      (refreshedEntry fc fm).metadata = JSVal.obj (flds.removeKey "position")) ∧
    (refreshedEntry fc fm).changed = fc.changed ∧
    (fc.changed = false →
      (update (updateCacheOnFrontmatterUpdate st fp fm).1).2.filter
        (fun w => w.filePath == fp) = []) := by
  have hf2 : st.cache.find? (fun c => c.filePath == fp) = some fc := h
  have hpfc := List.find?_some (p := fun (c : MetadataFileCache) => c.filePath == fp) hf2
  have hfind : getCacheForFile (updateCacheOnFrontmatterUpdate st fp fm).1 fp =
      some (refreshedEntry fc fm) := by
    rw [ucofu_accepted st fp fm fc h hcy]
    dsimp only
    exact find?_replaceFirst_self hf2 (by simpa [refreshedEntry] using hpfc)
  refine ⟨hfind, rfl, ?_, rfl, ?_⟩
  · rintro flds rfl
    rfl
  · intro hch
    have hnd2 : ((updateCacheOnFrontmatterUpdate st fp fm).1.cache.map (·.filePath)).Nodup := by
      rw [ucofu_accepted st fp fm fc h hcy]
      dsimp only
      rw [map_replaceFirst (y := refreshedEntry fc fm) (fun c => c.filePath) hf2 rfl]
      exact hnd
    have hwb := writeBacks_for_file (updateCacheOnFrontmatterUpdate st fp fm).1.cache fp
      (refreshedEntry fc fm) hnd2 hfind
    rw [update_eq]
    dsimp only
    rw [hwb]
    simp [refreshedEntry, hch]

/-- Witness for C10: an accepted refresh of the clean scenario entry does
not produce a write-back at the next tick. -/
theorem external_refresh_frame_witness :
    (update (updateCacheOnFrontmatterUpdate demoState "note.md"
        (JSVal.obj (.cons "position" .null (.cons "status" (.str "ext") .nil)))).1).2.filter
      (fun w => w.filePath == "note.md") = [] :=
  (external_refresh_frame demoState "note.md"
      (JSVal.obj (.cons "position" .null (.cons "status" (.str "ext") .nil))) demoEntry
      (by decide) (by decide) (by decide)).2.2.2.2 (by decide)

end MetaBind
